import Mathlib

/-!
Verification of the cursor-pagination engine of `typeorm-cursor-connection`
(`src/MongoEntityConnection.ts`), via a shallow embedding.

Rows (MongoDB documents) are modelled as finite association lists from field
names to scalar BSON values.  Mongo query selectors are modelled as a small
AST (`MongoSelector`) with their standard boolean semantics, and the ordered
query executor (`MongoRepository.find` / `count`) is modelled from the spec's
§6 contract.  All code of `MongoEntityConnection.ts` is translated directly.
-/

/-- Scalar BSON values that can appear in a sort key / document field.
`null` doubles as the value of a missing field. -/
inductive CValue where
  | null : CValue
  | int : Int → CValue
  | str : String → CValue
  | bool : Bool → CValue
deriving DecidableEq, Repr

/-- BSON type rank used for cross-type comparison (Null < Numbers < Strings < Booleans). -/
def typeRank : CValue → Nat
  | .null => 0
  | .int _ => 1
  | .str _ => 2
  | .bool _ => 3

/-- Strict order on characters by code point. -/
def charLt (a b : Char) : Bool := decide (a.toNat < b.toNat)

/-- Lexicographic strict order on character lists. -/
def chainLt : List Char → List Char → Bool
  | [], [] => false
  | [], _ :: _ => true
  | _ :: _, [] => false
  | a :: as, b :: bs => charLt a b || (a == b && chainLt as bs)

/-- Lexicographic strict order on strings (code-point-wise, modelling the data
source's string collation). -/
def strLt (a b : String) : Bool := chainLt a.data b.data

/-- Strict comparison between scalar values: by type rank first, then by the
value's own order.  Models the data source's total value order. -/
def cvLt : CValue → CValue → Bool
  | .int a, .int b => decide (a < b)
  | .str a, .str b => strLt a b
  | .bool a, .bool b => !a && b
  | a, b => decide (typeRank a < typeRank b)

/-- A document: finite association list from field names to values. -/
abbrev Entity := List (String × CValue)

/-- Field lookup in a document; a missing field reads as `null`. -/
def fieldVal (row : Entity) (f : String) : CValue :=
  match row.find? (fun p => p.1 == f) with
  | some p => p.2
  | none => .null

/-- One entry of the sort specification: `{ fieldName: string, order: 1 | -1 }`
(`MongoEntityConnectionSortOption` in the source; `order` is an `Int` whose
intended values are `1` and `-1`). -/
structure SortOption where
  fieldName : String
  order : Int
deriving DecidableEq, Repr

/-- Comparison operators that `keyToSelector` emits (`$gt`, `$gte`, `$lt`, `$lte`). -/
inductive CompOp where
  | gt | gte | lt | lte
deriving DecidableEq, Repr

/-- Semantics of a single `{field: {$op: value}}` constraint, first argument the
row's field value, second the constant. -/
def evalComp : CompOp → CValue → CValue → Bool
  | .gt, a, b => cvLt b a
  | .gte, a, b => cvLt b a || decide (a = b)
  | .lt, a, b => cvLt a b
  | .lte, a, b => cvLt a b || decide (a = b)

/-- Mongo selector AST as used by the source: a plain document of per-field
constraints, an `$or` of selectors, or an `$and` of selectors. -/
inductive MongoSelector where
  | doc : List (String × CompOp × CValue) → MongoSelector
  | or : List MongoSelector → MongoSelector
  | and : List MongoSelector → MongoSelector

mutual

/-- Boolean semantics of a selector over one document (MongoDB `find` filter
semantics, modelled from the spec's abstract RangePredicate reading). -/
def evalSelector (row : Entity) : MongoSelector → Bool
  | .doc entries => evalEntries row entries
  | .or sels => evalSelAny row sels
  | .and sels => evalSelAll row sels

/-- Conjunction of the field constraints of a plain selector document. -/
def evalEntries (row : Entity) : List (String × CompOp × CValue) → Bool
  | [] => true
  | e :: rest => evalComp e.2.1 (fieldVal row e.1) e.2.2 && evalEntries row rest

/-- `$or`: disjunction over a list of selectors. -/
def evalSelAny (row : Entity) : List MongoSelector → Bool
  | [] => false
  | s :: rest => evalSelector row s || evalSelAny row rest

/-- `$and`: conjunction over a list of selectors. -/
def evalSelAll (row : Entity) : List MongoSelector → Bool
  | [] => true
  | s :: rest => evalSelector row s && evalSelAll row rest

end

/-- JS object update `selector[fieldName] = constraint`: overwrite in place if
the key exists, otherwise append. -/
def setField (obj : List (String × CompOp × CValue)) (k : String) (v : CompOp × CValue) :
    List (String × CompOp × CValue) :=
  match obj with
  | [] => [(k, v.1, v.2)]
  | (k', v') :: rest => if k' = k then (k, v.1, v.2) :: rest else (k', v') :: setField rest k v

/-- Cursor direction argument of `keyToSelector`. -/
inductive Dir where
  | after | before
deriving DecidableEq, Repr

/-- The comparator table `eq` of `keyToSelector` (source lines 147–149). -/
def eqList : Dir → List CompOp
  | .after => [.gt, .lt, .gte, .lte]
  | .before => [.lt, .gt, .lte, .gte]

/-- The body of `keyToSelector`'s inner loop (source lines 155–167): for inner
index `j` and outer index `i`, assign
`selector[fieldName] = { [equality]: value }`.  Out-of-range indexing (`key[j]`
for `j ≥ key.length`) is modelled by `getD` defaults; all claims fix
`key.length = sortOptions.length`, under which the defaults are never read. -/
def ktsBody (sortOptions : List SortOption) (key : List CValue) (direction : Dir) (i : Nat)
    (selector : List (String × CompOp × CValue)) (j : Nat) :
    List (String × CompOp × CValue) :=
  let so := sortOptions.getD j ⟨"", 1⟩
  let value := key.getD j .null
  let equality : CompOp :=
    if i = j then
      (if so.order = 1 then (eqList direction).getD 0 .gt else (eqList direction).getD 1 .gt)
    else (if so.order = 1 then (eqList direction).getD 2 .gt else (eqList direction).getD 3 .gt)
  setField selector so.fieldName (equality, value)

/-- Direct translation of `MongoEntityConnection.keyToSelector` (source lines
146–171): the outer loop over prefix lengths `i`, the inner loop `ktsBody`
over `j ≤ i`, and the final `{ $or }` of the collected conjuncts. -/
def keyToSelector (sortOptions : List SortOption) (key : List CValue) (direction : Dir) :
    MongoSelector :=
  MongoSelector.or <|
    (List.range sortOptions.length).map fun i =>
      MongoSelector.doc <|
        (List.range (i + 1)).foldl (ktsBody sortOptions key direction i) []

/-- The sort key of a row: the row's values at the sort fields, in sort-spec
order (what `resolveCursor` serializes). -/
def rowKey (sortOptions : List SortOption) (row : Entity) : List CValue :=
  sortOptions.map fun so => fieldVal row so.fieldName

/-- Specification-side order: `keyAfter sos r k` holds iff key tuple `r` sorts
strictly after key tuple `k` under the composite multi-field order — the first
field where they differ decides, using that field's own direction. -/
def keyAfter : List SortOption → List CValue → List CValue → Bool
  | so :: rest, r :: rs, k :: ks =>
      if r = k then keyAfter rest rs ks
      else if so.order = 1 then cvLt k r else cvLt r k
  | _, _, _ => false

/-- Specification-side order: `keyBefore sos r k` holds iff `r` sorts strictly
before `k` under the composite multi-field order. -/
def keyBefore : List SortOption → List CValue → List CValue → Bool
  | so :: rest, r :: rs, k :: ks =>
      if r = k then keyBefore rest rs ks
      else if so.order = 1 then cvLt r k else cvLt k r
  | _, _, _ => false

lemma charLt_irrefl (a : Char) : charLt a a = false := by
  simp [charLt]

lemma charLt_asymm {a b : Char} (h : charLt a b = true) : charLt b a = false := by
  simp [charLt] at h ⊢; omega

lemma charLt_trans {a b c : Char} (h₁ : charLt a b = true) (h₂ : charLt b c = true) :
    charLt a c = true := by
  simp [charLt] at h₁ h₂ ⊢; omega

lemma charLt_connex {a b : Char} (h₁ : charLt a b = false) (h₂ : charLt b a = false) : a = b := by
  simp [charLt] at h₁ h₂
  exact Char.eq_of_val_eq (UInt32.toNat.inj (Nat.le_antisymm h₂ h₁))

lemma chainLt_irrefl (a : List Char) : chainLt a a = false := by
  induction a with
  | nil => rfl
  | cons x xs ih => simp [chainLt, charLt_irrefl, ih]

lemma chainLt_asymm : ∀ {a b : List Char}, chainLt a b = true → chainLt b a = false
  | [], [], h => by simp [chainLt] at h
  | [], _ :: _, _ => rfl
  | _ :: _, [], h => by simp [chainLt] at h
  | x :: xs, y :: ys, h => by
    simp only [chainLt, Bool.or_eq_true, Bool.and_eq_true, beq_iff_eq] at h
    simp only [chainLt, Bool.or_eq_false_iff, Bool.and_eq_false_iff]
    rcases h with h | ⟨rfl, h⟩
    · refine ⟨charLt_asymm h, .inl ?_⟩
      rw [beq_eq_false_iff_ne]
      rintro rfl
      simp [charLt_irrefl] at h
    · exact ⟨charLt_irrefl _, .inr (chainLt_asymm h)⟩

lemma chainLt_trans :
    ∀ {a b c : List Char}, chainLt a b = true → chainLt b c = true → chainLt a c = true
  | [], [], _, h, _ => by simp [chainLt] at h
  | _, _ :: _, [], _, h => by simp [chainLt] at h
  | [], _ :: _, _ :: _, _, _ => rfl
  | _ :: _, [], _, h, _ => by simp [chainLt] at h
  | x :: xs, y :: ys, z :: zs, h₁, h₂ => by
    simp only [chainLt, Bool.or_eq_true, Bool.and_eq_true, beq_iff_eq] at h₁ h₂ ⊢
    rcases h₁ with h₁ | ⟨rfl, h₁⟩
    · rcases h₂ with h₂ | ⟨rfl, h₂⟩
      · exact .inl (charLt_trans h₁ h₂)
      · exact .inl h₁
    · rcases h₂ with h₂ | ⟨rfl, h₂⟩
      · exact .inl h₂
      · exact .inr ⟨rfl, chainLt_trans h₁ h₂⟩

lemma chainLt_connex :
    ∀ {a b : List Char}, chainLt a b = false → chainLt b a = false → a = b
  | [], [], _, _ => rfl
  | [], _ :: _, h, _ => by simp [chainLt] at h
  | _ :: _, [], _, h => by simp [chainLt] at h
  | x :: xs, y :: ys, h₁, h₂ => by
    simp only [chainLt, Bool.or_eq_false_iff, Bool.and_eq_false_iff] at h₁ h₂
    obtain ⟨hxy, h₁⟩ := h₁
    obtain ⟨hyx, h₂⟩ := h₂
    have hx : x = y := charLt_connex hxy hyx
    subst hx
    have hx' : xs = ys := by
      rcases h₁ with h₁ | h₁
      · simp at h₁
      · rcases h₂ with h₂ | h₂
        · simp at h₂
        · exact chainLt_connex h₁ h₂
    rw [hx']

lemma strLt_irrefl (a : String) : strLt a a = false := chainLt_irrefl a.data

lemma strLt_asymm {a b : String} (h : strLt a b = true) : strLt b a = false := chainLt_asymm h

lemma strLt_trans {a b c : String} (h₁ : strLt a b = true) (h₂ : strLt b c = true) :
    strLt a c = true := chainLt_trans h₁ h₂

lemma strLt_connex {a b : String} (h₁ : strLt a b = false) (h₂ : strLt b a = false) : a = b := by
  cases a; cases b
  exact congrArg String.mk (chainLt_connex h₁ h₂)

lemma cvLt_irrefl (a : CValue) : cvLt a a = false := by
  cases a <;> simp [cvLt, strLt_irrefl]

lemma cvLt_asymm {a b : CValue} (h : cvLt a b = true) : cvLt b a = false := by
  cases a <;> cases b <;> simp_all [cvLt, typeRank, strLt_asymm] <;> omega

lemma cvLt_trans {a b c : CValue} (h₁ : cvLt a b = true) (h₂ : cvLt b c = true) :
    cvLt a c = true := by
  cases a <;> cases b <;> cases c <;>
    simp_all [cvLt, typeRank] <;>
    first
      | omega
      | exact strLt_trans h₁ h₂

lemma cvLt_connex {a b : CValue} (h₁ : cvLt a b = false) (h₂ : cvLt b a = false) : a = b := by
  cases a <;> cases b <;>
    simp_all [cvLt, typeRank] <;>
    first
      | omega
      | exact strLt_connex h₁ h₂
      | (rename_i x y; revert h₁ h₂; cases x <;> cases y <;> simp)

/-- `keyAfter` and `keyBefore` bundled by direction. -/
def keyDir : Dir → List SortOption → List CValue → List CValue → Bool
  | .after => keyAfter
  | .before => keyBefore

/-- The strict comparator `keyToSelector` places on the last field of a
conjunct (`eq[0]`/`eq[1]` in the source). -/
def strictOp : Dir → Int → CompOp
  | .after, o => if o = 1 then .gt else .lt
  | .before, o => if o = 1 then .lt else .gt

/-- The non-strict comparator `keyToSelector` places on earlier fields
(`eq[2]`/`eq[3]` in the source). -/
def looseOp : Dir → Int → CompOp
  | .after, o => if o = 1 then .gte else .lte
  | .before, o => if o = 1 then .lte else .gte

lemma setField_cons_of_ne (x : String × CompOp × CValue)
    (obj : List (String × CompOp × CValue)) (k : String) (v : CompOp × CValue)
    (h : x.1 ≠ k) : setField (x :: obj) k v = x :: setField obj k v := by
  obtain ⟨x1, x2⟩ := x
  simp only [setField, if_neg h]

lemma foldl_setField_cons (x : String × CompOp × CValue) (js : List Nat)
    (F : Nat → String) (G : Nat → CompOp × CValue) :
    ∀ (init : List (String × CompOp × CValue)), (∀ j ∈ js, F j ≠ x.1) →
      js.foldl (fun o j => setField o (F j) (G j)) (x :: init)
        = x :: js.foldl (fun o j => setField o (F j) (G j)) init := by
  induction js with
  | nil => intro init _; rfl
  | cons j js ih =>
    intro init h
    simp only [List.foldl_cons]
    rw [setField_cons_of_ne x init (F j) (G j) (Ne.symm (h j (by simp)))]
    exact ih _ (fun j' hj' => h j' (by simp [hj']))

lemma getD_fieldName_mem (l : List SortOption) (j : Nat) (hj : j < l.length) (d₀ : SortOption) :
    (l.getD j d₀).fieldName ∈ l.map (·.fieldName) := by
  rw [List.getD_eq_getElem l d₀ hj]
  exact List.mem_map_of_mem _ (l.getElem_mem hj)

lemma evalSelAny_doc_cons {α : Type} (row : Entity) (p : String × CompOp × CValue)
    (l : List α) (D : α → List (String × CompOp × CValue)) :
    evalSelAny row (l.map fun i => .doc (p :: D i))
      = (evalComp p.2.1 (fieldVal row p.1) p.2.2 && evalSelAny row (l.map fun i => .doc (D i))) := by
  induction l with
  | nil => simp [evalSelAny]
  | cons x xs ih =>
    simp only [List.map_cons, evalSelAny, ih, evalSelector, evalEntries]
    cases evalComp p.2.1 (fieldVal row p.1) p.2.2 <;> simp

lemma ktsBody_shift (so : SortOption) (rest : List SortOption) (kv : CValue) (ks : List CValue)
    (d : Dir) (i j : Nat) (selector : List (String × CompOp × CValue)) :
    ktsBody (so :: rest) (kv :: ks) d (i + 1) selector (j + 1) =
      ktsBody rest ks d i selector j := by
  simp [ktsBody, Nat.add_right_cancel_iff]

lemma strict_branch_eq (d : Dir) (o : Int) :
    (if o = 1 then (eqList d).getD 0 .gt else (eqList d).getD 1 .gt) = strictOp d o := by
  cases d <;> simp [eqList, strictOp]

lemma loose_branch_eq (d : Dir) (o : Int) :
    (if o = 1 then (eqList d).getD 2 .gt else (eqList d).getD 3 .gt) = looseOp d o := by
  cases d <;> simp [eqList, looseOp]

lemma ktsBody_head_strict (so : SortOption) (rest : List SortOption) (kv : CValue)
    (ks : List CValue) (d : Dir) (selector : List (String × CompOp × CValue)) :
    ktsBody (so :: rest) (kv :: ks) d 0 selector 0 =
      setField selector so.fieldName (strictOp d so.order, kv) := by
  simp only [ktsBody, List.getD_cons_zero, eq_self_iff_true, if_true, strict_branch_eq]

lemma ktsBody_head_loose (so : SortOption) (rest : List SortOption) (kv : CValue)
    (ks : List CValue) (d : Dir) (i' : Nat) (selector : List (String × CompOp × CValue)) :
    ktsBody (so :: rest) (kv :: ks) d (i' + 1) selector 0 =
      setField selector so.fieldName (looseOp d so.order, kv) := by
  simp only [ktsBody, List.getD_cons_zero, if_neg (Nat.succ_ne_zero i')]
  rw [loose_branch_eq]

/-- Unfolding the inner fold of a shifted conjunct: the `i' + 1`-st conjunct
for `so :: rest` is the non-strict head constraint followed by the `i'`-th
conjunct for `rest`. -/
lemma docFold_succ (so : SortOption) (rest : List SortOption) (kv : CValue) (ks : List CValue)
    (d : Dir) (i' : Nat) (hi' : i' < rest.length)
    (hfresh : so.fieldName ∉ rest.map (·.fieldName)) :
    (List.range (i' + 1 + 1)).foldl (ktsBody (so :: rest) (kv :: ks) d (i' + 1)) [] =
      (so.fieldName, looseOp d so.order, kv) ::
        (List.range (i' + 1)).foldl (ktsBody rest ks d i') [] := by
  rw [List.range_succ_eq_map, List.foldl_cons, List.foldl_map]
  have hshift : ∀ (acc : List (String × CompOp × CValue)) (j : Nat),
      ktsBody (so :: rest) (kv :: ks) d (i' + 1) acc (j + 1) = ktsBody rest ks d i' acc j :=
    fun acc j => ktsBody_shift so rest kv ks d i' j acc
  rw [ktsBody_head_loose so rest kv ks d i' []]
  show (List.range (i' + 1)).foldl
      (fun acc j => ktsBody (so :: rest) (kv :: ks) d (i' + 1) acc (j + 1))
      [(so.fieldName, looseOp d so.order, kv)] = _
  have hfun :
      (fun (acc : List (String × CompOp × CValue)) (j : Nat) =>
        ktsBody (so :: rest) (kv :: ks) d (i' + 1) acc (j + 1)) =
      ktsBody rest ks d i' := by
    funext acc j; exact hshift acc j
  rw [hfun]
  have hbody : ktsBody rest ks d i' = fun acc j =>
      setField acc ((rest.getD j ⟨"", 1⟩).fieldName)
        ((if i' = j then
            (if (rest.getD j ⟨"", 1⟩).order = 1 then (eqList d).getD 0 .gt
             else (eqList d).getD 1 .gt)
          else (if (rest.getD j ⟨"", 1⟩).order = 1 then (eqList d).getD 2 .gt
             else (eqList d).getD 3 .gt)),
         ks.getD j .null) := by
    funext acc j; simp [ktsBody]
  rw [hbody]
  refine foldl_setField_cons _ _ _ _ [] ?_
  intro j hj hcontra
  have hjlt : j < rest.length :=
    lt_of_lt_of_le (List.mem_range.mp hj) (Nat.succ_le_of_lt hi')
  apply hfresh
  have hname : (rest.getD j ⟨"", 1⟩).fieldName = so.fieldName := hcontra
  rw [← hname]
  exact getD_fieldName_mem rest j hjlt ⟨"", 1⟩

/-- Peeling one sort field off `keyToSelector`: the selector for `so :: rest`
is "strictly past `kv` on `so`, or loosely past `kv` on `so` and past the tail
key on `rest`". -/
lemma keyToSelector_cons_eval (so : SortOption) (rest : List SortOption) (kv : CValue)
    (ks : List CValue) (d : Dir) (row : Entity)
    (hfresh : so.fieldName ∉ rest.map (·.fieldName)) :
    evalSelector row (keyToSelector (so :: rest) (kv :: ks) d) =
      (evalComp (strictOp d so.order) (fieldVal row so.fieldName) kv
        || (evalComp (looseOp d so.order) (fieldVal row so.fieldName) kv
            && evalSelector row (keyToSelector rest ks d))) := by
  have hlen : (so :: rest).length = rest.length + 1 := rfl
  have hdocs :
      (List.range (rest.length + 1)).map (fun i =>
        MongoSelector.doc ((List.range (i + 1)).foldl (ktsBody (so :: rest) (kv :: ks) d i) []))
      = MongoSelector.doc [(so.fieldName, strictOp d so.order, kv)] ::
        (List.range rest.length).map (fun i' =>
          MongoSelector.doc ((so.fieldName, looseOp d so.order, kv) ::
            (List.range (i' + 1)).foldl (ktsBody rest ks d i') [])) := by
    rw [List.range_succ_eq_map, List.map_cons, List.map_map]
    congr 1
    · rw [show List.range (0 + 1) = [0] from rfl]
      simp only [List.foldl_cons, List.foldl_nil]
      rw [ktsBody_head_strict so rest kv ks d []]
      rfl
    · apply List.map_congr_left
      intro i' hi'
      simp only [Function.comp_apply, Nat.succ_eq_add_one]
      rw [docFold_succ so rest kv ks d i' (List.mem_range.mp hi') hfresh]
  simp only [keyToSelector, List.length_cons]
  rw [hdocs]
  simp only [evalSelector, evalSelAny, evalEntries, Bool.and_true]
  rw [evalSelAny_doc_cons row (so.fieldName, looseOp d so.order, kv) (List.range rest.length)
    (fun i' => (List.range (i' + 1)).foldl (ktsBody rest ks d i') [])]

lemma tie_or (a b : CValue) (s T : Bool) (hirr : a = b → s = false) :
    (s || ((s || decide (a = b)) && T)) = if a = b then T else s := by
  by_cases h : a = b
  · subst h
    simp [hirr rfl]
  · simp only [if_neg h, decide_eq_false h, Bool.or_false]
    cases s <;> simp

/-- Main keyset lemma: under distinct field names and matching arity, the
selector built by `keyToSelector` holds on a row exactly when the row's sort
key is strictly past the cursor key in the composite order (`keyAfter` for
direction `after`, `keyBefore` for `before`). -/
lemma eval_keyToSelector (d : Dir) :
    ∀ (sos : List SortOption) (k : List CValue) (row : Entity),
      (sos.map (·.fieldName)).Nodup → k.length = sos.length →
      evalSelector row (keyToSelector sos k d) = keyDir d sos (rowKey sos row) k := by
  intro sos
  induction sos with
  | nil =>
    intro k row _ hlen
    have hk : k = [] := List.length_eq_zero.mp hlen
    subst hk
    cases d <;> rfl
  | cons so rest ih =>
    intro k row hnodup hlen
    match k, hlen with
    | kv :: ks, hlen =>
      have hnodup2 : (so.fieldName :: rest.map (·.fieldName)).Nodup := by
        simpa using hnodup
      have hfresh : so.fieldName ∉ rest.map (·.fieldName) := (List.nodup_cons.mp hnodup2).1
      have hnodup' : (rest.map (·.fieldName)).Nodup := (List.nodup_cons.mp hnodup2).2
      have hlen' : ks.length = rest.length := by simpa using hlen
      rw [keyToSelector_cons_eval so rest kv ks d row hfresh,
        ih ks row hnodup' hlen']
      have hrow : rowKey (so :: rest) row = fieldVal row so.fieldName :: rowKey rest row := rfl
      rw [hrow]
      cases d <;> by_cases ho : so.order = 1 <;>
        simp only [keyDir, keyAfter, keyBefore, strictOp, looseOp, evalComp, ho,
          eq_self_iff_true, if_true, if_false, ite_false, ite_true] <;>
        exact tie_or _ _ _ _ (fun h => by rw [h]; exact cvLt_irrefl _)

/-- The standard keyset predicate, written from the spec's §4.2 words: a
disjunction over prefix lengths `i`, with *equality* constraints on fields
`j < i` and the direction-appropriate strict comparison on field `i`. -/
def specKeysetPred (sos : List SortOption) (key : List CValue) (d : Dir) (row : Entity) : Bool :=
  (List.range sos.length).any fun i =>
    ((List.range i).all fun j =>
      decide (fieldVal row ((sos.getD j ⟨"", 1⟩).fieldName) = key.getD j .null))
    && evalComp (strictOp d (sos.getD i ⟨"", 1⟩).order)
        (fieldVal row ((sos.getD i ⟨"", 1⟩).fieldName)) (key.getD i .null)

lemma any_and_left {α : Type} (c : Bool) (l : List α) (g : α → Bool) :
    l.any (fun i => c && g i) = (c && l.any g) := by
  induction l with
  | nil => cases c <;> rfl
  | cons x xs ih =>
    simp only [List.any_cons, ih]
    cases c <;> simp

lemma anyCongr {α : Type} (p q : α → Bool) :
    ∀ (l : List α), (∀ a ∈ l, p a = q a) → l.any p = l.any q
  | [], _ => rfl
  | x :: xs, h => by
    simp only [List.any_cons, h x (List.mem_cons_self x xs),
      anyCongr p q xs (fun a ha => h a (List.mem_cons_of_mem x ha))]

lemma specKeysetPred_cons (so : SortOption) (rest : List SortOption) (kv : CValue)
    (ks : List CValue) (d : Dir) (row : Entity) :
    specKeysetPred (so :: rest) (kv :: ks) d row =
      (evalComp (strictOp d so.order) (fieldVal row so.fieldName) kv
        || (decide (fieldVal row so.fieldName = kv) && specKeysetPred rest ks d row)) := by
  show (List.range (rest.length + 1)).any _ = _
  rw [List.range_succ_eq_map, List.any_cons, List.any_map]
  congr 1
  simp only [specKeysetPred]
  rw [← any_and_left]
  apply anyCongr
  intro i' _
  simp only [Function.comp_def, Function.comp_apply, Nat.succ_eq_add_one, List.getD_cons_succ,
    List.getD_cons_zero, List.getElem?_cons_succ, List.getElem?_cons_zero,
    Option.getD_some, List.range_succ_eq_map, List.all_cons, List.all_map,
    Bool.and_assoc]

/-- The spec's equality-prefix keyset predicate agrees with the composite
strict order. -/
lemma specKeysetPred_eq (d : Dir) :
    ∀ (sos : List SortOption) (k : List CValue) (row : Entity), k.length = sos.length →
      specKeysetPred sos k d row = keyDir d sos (rowKey sos row) k := by
  intro sos
  induction sos with
  | nil =>
    intro k row hlen
    have hk : k = [] := List.length_eq_zero.mp hlen
    subst hk
    cases d <;> rfl
  | cons so rest ih =>
    intro k row hlen
    match k, hlen with
    | kv :: ks, hlen =>
      have hlen' : ks.length = rest.length := by simpa using hlen
      rw [specKeysetPred_cons so rest kv ks d row, ih ks row hlen']
      have hrow : rowKey (so :: rest) row = fieldVal row so.fieldName :: rowKey rest row := rfl
      rw [hrow]
      have tie_or2 : ∀ (a b : CValue) (s T : Bool), (a = b → s = false) →
          (s || (decide (a = b) && T)) = if a = b then T else s := by
        intro a b s T hirr
        by_cases h : a = b
        · subst h; simp [hirr rfl]
        · simp [h]
      cases d <;> by_cases ho : so.order = 1 <;>
        simp only [keyDir, keyAfter, keyBefore, strictOp, looseOp, evalComp, ho,
          eq_self_iff_true, if_true, if_false, ite_false, ite_true] <;>
        exact tie_or2 _ _ _ _ (fun h => by rw [h]; exact cvLt_irrefl _)

/-- Fuelled base-10 digit extraction (structural recursion so that it
computes by kernel reduction). -/
def natDigitsGo : Nat → Nat → List Nat
  | 0, _ => []
  | fuel + 1, n => if n = 0 then [] else (n % 10) :: natDigitsGo fuel (n / 10)

/-- Base-10 digits of a natural number, least-significant first.
Modelled from the spec: the cursor codec's binary layer (`bson.serialize` /
`Buffer.toString('base64')`, external library code not under `src/`) is
realised as a concrete length/terminator-delimited text encoding per §4.1. -/
def natToRevDigits (n : Nat) : List Nat := natDigitsGo n n

/-- Value of a least-significant-first digit list. -/
def digitsVal : List Nat → Nat
  | [] => 0
  | d :: rest => d + 10 * digitsVal rest

lemma digitsVal_natDigitsGo :
    ∀ (fuel n : Nat), n ≤ fuel → digitsVal (natDigitsGo fuel n) = n := by
  intro fuel
  induction fuel with
  | zero =>
    intro n hn
    have : n = 0 := Nat.le_zero.mp hn
    subst this
    rfl
  | succ fuel ih =>
    intro n hn
    by_cases h : n = 0
    · subst h; simp [natDigitsGo, digitsVal]
    · rw [natDigitsGo, if_neg h]
      simp only [digitsVal]
      have hdiv : n / 10 ≤ fuel := by omega
      rw [ih (n / 10) hdiv]
      omega

lemma digitsVal_natToRevDigits (n : Nat) : digitsVal (natToRevDigits n) = n :=
  digitsVal_natDigitsGo n n (le_refl n)

lemma natDigitsGo_lt_ten :
    ∀ (fuel n : Nat), ∀ d ∈ natDigitsGo fuel n, d < 10 := by
  intro fuel
  induction fuel with
  | zero => intro n d hd; simp [natDigitsGo] at hd
  | succ fuel ih =>
    intro n d hd
    by_cases h : n = 0
    · subst h; simp [natDigitsGo] at hd
    · rw [natDigitsGo, if_neg h] at hd
      rcases List.mem_cons.mp hd with rfl | hd'
      · omega
      · exact ih (n / 10) d hd'

lemma natToRevDigits_lt_ten (n : Nat) : ∀ d ∈ natToRevDigits n, d < 10 :=
  natDigitsGo_lt_ten n n

/-- A digit rendered as the character `'0' + d`. -/
def digitChar (d : Nat) : Char := Char.ofNat (48 + d)

/-- Inverse of `digitChar`; fails on non-digit characters. -/
def charDigit (c : Char) : Option Nat :=
  if 48 ≤ c.toNat ∧ c.toNat ≤ 57 then some (c.toNat - 48) else none

lemma charDigit_digitChar (d : Nat) (hd : d < 10) : charDigit (digitChar d) = some d := by
  interval_cases d <;> decide

lemma digitChar_ne_semi (d : Nat) (hd : d < 10) : digitChar d ≠ ';' := by
  interval_cases d <;> decide

/-- The digit characters of `n`, least-significant first. -/
def digitChars (n : Nat) : List Char := (natToRevDigits n).map digitChar

/-- Parse a least-significant-first digit-character list back to its value. -/
def digitsOfChars : List Char → Option Nat
  | [] => some 0
  | c :: rest => do
    let d ← charDigit c
    let v ← digitsOfChars rest
    some (d + 10 * v)

lemma digitsOfChars_map (ds : List Nat) (h : ∀ d ∈ ds, d < 10) :
    digitsOfChars (ds.map digitChar) = some (digitsVal ds) := by
  induction ds with
  | nil => rfl
  | cons d rest ih =>
    simp only [List.map_cons, digitsOfChars,
      charDigit_digitChar d (h d (List.mem_cons_self d rest)),
      ih (fun d' hd' => h d' (List.mem_cons_of_mem d hd')), digitsVal,
      Option.bind_eq_bind, Option.some_bind]

lemma digitsOfChars_digitChars (n : Nat) : digitsOfChars (digitChars n) = some n := by
  rw [digitChars, digitsOfChars_map _ (natToRevDigits_lt_ten n), digitsVal_natToRevDigits]

/-- Split a character list at the first `';'`. -/
def splitAtSemi : List Char → Option (List Char × List Char)
  | [] => none
  | c :: rest =>
    if c = ';' then some ([], rest)
    else (splitAtSemi rest).map fun p => (c :: p.1, p.2)

lemma splitAtSemi_append (l r : List Char) (hl : ∀ c ∈ l, c ≠ ';') :
    splitAtSemi (l ++ ';' :: r) = some (l, r) := by
  induction l with
  | nil => simp [splitAtSemi]
  | cons c cs ih =>
    have hc : c ≠ ';' := hl c (List.mem_cons_self c cs)
    simp only [List.cons_append, splitAtSemi, if_neg hc, List.append_eq]
    rw [ih (fun c' hc' => hl c' (List.mem_cons_of_mem c hc'))]
    rfl

lemma digitChars_ne_semi (n : Nat) : ∀ c ∈ digitChars n, c ≠ ';' := by
  intro c hc
  rcases List.mem_map.mp hc with ⟨d, hd, rfl⟩
  exact digitChar_ne_semi d (natToRevDigits_lt_ten n d hd)

/-- Serialization of one scalar value: a type-tag character followed by a
self-delimiting payload.  Modelled from the spec (§4.1): the concrete wire
format of `bson.serialize` is an external library detail; any lossless
per-type tagged encoding realises it. -/
def encodeValue : CValue → List Char
  | .null => ['n']
  | .bool b => ['b', if b then '1' else '0']
  | .int i => 'i' :: (if i < 0 then '-' else '+') :: (digitChars i.natAbs ++ [';'])
  | .str s => 's' :: (digitChars s.data.length ++ (';' :: s.data))

/-- Parser for `encodeValue`; returns the value and the unconsumed suffix,
failing on any malformed input. -/
def parseValue : List Char → Option (CValue × List Char)
  | [] => none
  | c :: rest =>
    if c = 'n' then some (.null, rest)
    else if c = 'b' then
      match rest with
      | [] => none
      | b :: rest' =>
        if b = '1' then some (.bool true, rest')
        else if b = '0' then some (.bool false, rest')
        else none
    else if c = 'i' then
      match rest with
      | [] => none
      | sgn :: rest' => do
        let p ← splitAtSemi rest'
        let n ← digitsOfChars p.1
        if sgn = '-' then some (.int (-(n : Int)), p.2)
        else if sgn = '+' then some (.int (n : Int), p.2)
        else none
    else if c = 's' then do
      let p ← splitAtSemi rest
      let n ← digitsOfChars p.1
      if n ≤ p.2.length then some (.str ⟨p.2.take n⟩, p.2.drop n) else none
    else none

lemma parseValue_encodeValue (v : CValue) (rest : List Char) :
    parseValue (encodeValue v ++ rest) = some (v, rest) := by
  cases v with
  | null => rfl
  | bool b => cases b <;> rfl
  | int i =>
    have hassoc : encodeValue (.int i) ++ rest =
        'i' :: (if i < 0 then '-' else '+') :: (digitChars i.natAbs ++ (';' :: rest)) := by
      simp [encodeValue]
    rw [hassoc]
    simp only [parseValue, if_neg (by decide : ¬('i' : Char) = 'n'),
      if_neg (by decide : ¬('i' : Char) = 'b'), if_pos rfl]
    rw [splitAtSemi_append _ _ (digitChars_ne_semi i.natAbs)]
    simp only [Option.bind_eq_bind, Option.some_bind, digitsOfChars_digitChars]
    by_cases hi : i < 0
    · rw [if_pos hi, if_pos rfl]
      have habs : (-(i.natAbs : Int)) = i := by omega
      rw [habs]
      simp
    · rw [if_neg hi, if_neg (by decide : ¬('+' : Char) = '-'), if_pos rfl]
      have habs : ((i.natAbs : Int)) = i := by omega
      rw [habs]
      simp
  | str s =>
    have hassoc : encodeValue (.str s) ++ rest =
        's' :: (digitChars s.data.length ++ (';' :: (s.data ++ rest))) := by
      simp [encodeValue]
    rw [hassoc]
    simp only [parseValue, if_neg (by decide : ¬('s' : Char) = 'n'),
      if_neg (by decide : ¬('s' : Char) = 'b'), if_neg (by decide : ¬('s' : Char) = 'i'),
      if_pos rfl]
    rw [splitAtSemi_append _ _ (digitChars_ne_semi s.data.length)]
    simp only [Option.bind_eq_bind, Option.some_bind, digitsOfChars_digitChars]
    rw [if_pos (by simp), List.take_left, List.drop_left]
    simp

/-- Serialization of a whole cursor key: concatenation of the value encodings
(the key tuple is recovered by parsing until the input is exhausted). -/
def encodeValues : List CValue → List Char
  | [] => []
  | v :: vs => encodeValue v ++ encodeValues vs

/-- Fuelled parser for a sequence of values; consumes the entire input. -/
def parseValuesAux : Nat → List Char → Option (List CValue)
  | _, [] => some []
  | 0, _ :: _ => none
  | fuel + 1, c :: cs => do
    let p ← parseValue (c :: cs)
    let vs ← parseValuesAux fuel p.2
    some (p.1 :: vs)

/-- `encode(key)`: the cursor string (`resolveCursor`'s serialization step,
modelled from the spec §4.1). -/
def encodeKey (k : List CValue) : String := ⟨encodeValues k⟩

/-- `decode(cursor)`: inverse of `encodeKey`; `none` models a
`MalformedCursorError` thrown by `explodeCursor` on corrupt input. -/
def decodeKey (s : String) : Option (List CValue) := parseValuesAux s.data.length s.data

lemma encodeValue_ne_nil (v : CValue) : encodeValue v ≠ [] := by
  cases v <;> simp [encodeValue]

lemma parseValuesAux_encodeValues :
    ∀ (k : List CValue) (fuel : Nat), (encodeValues k).length ≤ fuel →
      parseValuesAux fuel (encodeValues k) = some k := by
  intro k
  induction k with
  | nil => intro fuel _; cases fuel <;> rfl
  | cons v vs ih =>
    intro fuel hfuel
    have hne : encodeValues (v :: vs) ≠ [] := by
      show encodeValue v ++ encodeValues vs ≠ []
      simp [encodeValue_ne_nil v]
    obtain ⟨c, cs, hcons⟩ := List.exists_cons_of_ne_nil hne
    have hlen : (encodeValues (v :: vs)).length ≥ 1 + (encodeValues vs).length := by
      show (encodeValue v ++ encodeValues vs).length ≥ _
      rw [List.length_append]
      have : 1 ≤ (encodeValue v).length := by
        cases hev : encodeValue v
        · exact absurd hev (encodeValue_ne_nil v)
        · simp
      omega
    match fuel, hfuel with
    | f + 1, hfuel =>
      rw [hcons]
      show (do
        let p ← parseValue (c :: cs)
        let vs' ← parseValuesAux f p.2
        some (p.1 :: vs')) = some (v :: vs)
      rw [← hcons, show encodeValues (v :: vs) = encodeValue v ++ encodeValues vs from rfl,
        parseValue_encodeValue v (encodeValues vs)]
      simp only [Option.bind_eq_bind, Option.some_bind]
      rw [ih f (by omega)]
      rfl
    | 0, hfuel =>
      exact absurd hfuel (by rw [hcons]; simp)

/-- Round-trip of the cursor codec. -/
lemma decodeKey_encodeKey (k : List CValue) : decodeKey (encodeKey k) = some k :=
  parseValuesAux_encodeValues k (encodeValues k).length (le_refl _)

example :
    keyAfter [⟨"a", 1⟩, ⟨"b", -1⟩] [.int 5, .str "x"] [.int 5, .str "y"] = true := by
  decide

example :
    evalSelector [("a", .int 4), ("b", .str "x")]
      (keyToSelector [⟨"a", 1⟩, ⟨"b", -1⟩] [.int 5, .str "y"] .after) = false := by
  decide

/-- `ConnectionArguments`: `{ first?, last?, after?, before? }` with
non-negative integer page sizes and opaque cursor strings. -/
structure ConnArgs where
  first : Option Nat
  last : Option Nat
  after : Option String
  before : Option String
deriving DecidableEq, Repr

/-- JS truthiness of an optional number (`undefined` and `0` are falsy), as
used by `args.first && args.last` and `args.first || args.last`. -/
def truthyNat : Option Nat → Bool
  | some n => decide (n ≠ 0)
  | none => false

/-- JS truthiness of an optional string (`undefined` and `""` are falsy), as
used by `if (args.after)` / `if (args.before)`. -/
def truthyStr : Option String → Bool
  | some s => decide (s ≠ "")
  | none => false

/-- Connection-level errors (§7 taxonomy). -/
inductive ConnError where
  | invalidArgument : String → ConnError
  | malformedCursor : ConnError
deriving DecidableEq, Repr

/-- `MongoEntityConnectionOptions`: ordered sort spec (insertion order of the
`sortOptions` object keys) and optional base selector; the repository handle
is passed separately as the row list `data` of the modelled data source. -/
structure MongoEntityConnectionOptions where
  sortOptions : List SortOption
  selector : Option MongoSelector

/-- The state a successfully constructed `MongoEntityConnection` holds
(fields of the class, source lines 20–26). -/
structure ConnectionState where
  args : ConnArgs
  sortOptions : List SortOption
  limit : Option Nat
  afterKey : Option (List CValue)
  beforeKey : Option (List CValue)
  afterSelector : Option MongoSelector
  beforeSelector : Option MongoSelector
  selector : MongoSelector

/-- `if (args.after) { this.afterKey = this.explodeCursor(args.after); ... }`:
decode a cursor argument when truthy; a failed decode propagates as
`MalformedCursorError`. -/
def decodeIfTruthy : Option String → Except ConnError (Option (List CValue))
  | none => .ok none
  | some s =>
    if s = "" then .ok none
    else
      match decodeKey s with
      | some k => .ok (some k)
      | none => .error .malformedCursor

/-- The exact message of the first/last exclusivity error (source line 35). -/
def invalidArgMsg : String :=
  "Argument \"first\" and \"last\" must not be included at the same time"

/-- `limit = args.first || args.last || undefined` (source line 44), with JS
falsiness of `0`. -/
def jsLimit (args : ConnArgs) : Option Nat :=
  if truthyNat args.first then args.first
  else if truthyNat args.last then args.last else none

/-- The `selectors` array accumulated by `selectors.push(...)` (source lines
46–59): after-selector, before-selector, then the caller's base selector,
each when present. -/
def pushedSelectors (afterSelector beforeSelector base : Option MongoSelector) :
    List MongoSelector :=
  (match afterSelector with | some s => [s] | none => []) ++
  (match beforeSelector with | some s => [s] | none => []) ++
  (match base with | some s => [s] | none => [])

/-- Combination of the pushed selectors (source lines 60–66): `{}` when none,
the selector itself when one, `{$and: selectors}` otherwise. -/
def combineSelectors (selectors : List MongoSelector) : MongoSelector :=
  match selectors with
  | [] => .doc []
  | [s] => s
  | _ => .and selectors

/-- The state record a successful construction produces. -/
def mkState (args : ConnArgs) (options : MongoEntityConnectionOptions)
    (afterKey beforeKey : Option (List CValue)) : ConnectionState :=
  let sortOptions := options.sortOptions
  let afterSelector := afterKey.map fun k => keyToSelector sortOptions k .after
  let beforeSelector := beforeKey.map fun k => keyToSelector sortOptions k .before
  { args := args, sortOptions := sortOptions, limit := jsLimit args,
    afterKey := afterKey, beforeKey := beforeKey,
    afterSelector := afterSelector, beforeSelector := beforeSelector,
    selector := combineSelectors
      (pushedSelectors afterSelector beforeSelector options.selector) }

/-- Direct translation of the constructor (source lines 30–67): the
truthiness-based first/last check, `limit = first || last || undefined`,
cursor decoding, per-bound range selectors, and the `$and` composition with
the optional base selector. -/
def mkConnection (args : ConnArgs) (options : MongoEntityConnectionOptions) :
    Except ConnError ConnectionState :=
  if truthyNat args.first && truthyNat args.last then
    .error (.invalidArgument invalidArgMsg)
  else
    match decodeIfTruthy args.after with
    | .error e => .error e
    | .ok afterKey =>
      match decodeIfTruthy args.before with
      | .error e => .error e
      | .ok beforeKey => .ok (mkState args options afterKey beforeKey)

/-- Three-way comparison of scalar values derived from `cvLt`. -/
def cvCompare (a b : CValue) : Ordering :=
  if cvLt a b then .lt else if cvLt b a then .gt else .eq

/-- Per-field comparison under a sort direction (`1` ascending, else
descending). -/
def fieldCmp (order : Int) (a b : CValue) : Ordering :=
  if order = 1 then cvCompare a b else cvCompare b a

/-- Composite row comparison per an ordered sort spec: first field that
differs decides.  Models the executor's multi-field sort order. -/
def entCmp : List SortOption → Entity → Entity → Ordering
  | [], _, _ => .eq
  | so :: rest, a, b =>
    match fieldCmp so.order (fieldVal a so.fieldName) (fieldVal b so.fieldName) with
    | .eq => entCmp rest a b
    | o => o

/-- Non-strict composite comparison used as the executor's sort relation. -/
def entLe (sos : List SortOption) (a b : Entity) : Bool :=
  decide (entCmp sos a b ≠ Ordering.gt)

/-- Modelled from the spec §6: `fetch(predicate, order, limit?)` of the
ordered query executor (`MongoRepository.find({where, order, take})`): rows
matching the predicate, sorted per `order`, truncated to `limit` if given.
The abstract data source is the list `data` of all rows. -/
def repoFind (data : List Entity) (sel : MongoSelector) (order : List SortOption)
    (take? : Option Nat) : List Entity :=
  let matched := data.filter fun row => evalSelector row sel
  let sorted := List.insertionSort (fun a b => entLe order a b = true) matched
  match take? with
  | some n => sorted.take n
  | none => sorted

/-- Modelled from the spec §6: `countUpTo(predicate, bound) = min(count,
bound)` (`repository.count(selector, { limit })`). -/
def repoCount (data : List Entity) (sel : MongoSelector) (bound : Nat) : Nat :=
  min (data.filter fun row => evalSelector row sel).length bound

/-- Direct translation of `query` (source lines 119–137): invert every sort
direction when `last` is a number, fetch with the connection's selector and
limit, and reverse the fetched rows in memory. -/
def runQuery (conn : ConnectionState) (data : List Entity) : List Entity :=
  let reverse := conn.args.last.isSome
  let appliedSortOrder := conn.sortOptions.map fun so =>
    SortOption.mk so.fieldName (so.order * (if reverse then -1 else 1))
  let docs := repoFind data conn.selector appliedSortOrder conn.limit
  if reverse then docs.reverse else docs

/-- Direct translation of `resolveHasNextPage` (source lines 80–94).
`this.beforeKey!`'s non-null assertion is modelled by `getD []`. -/
def resolveHasNextPage (conn : ConnectionState) (data : List Entity) : Bool :=
  match conn.args.first with
  | some first => decide (repoCount data conn.selector (first + 1) > first)
  | none =>
    match conn.args.before with
    | some _ =>
      let afterBeforeSelector := keyToSelector conn.sortOptions (conn.beforeKey.getD []) .after
      decide (repoCount data afterBeforeSelector 1 > 0)
    | none => false

/-- Direct translation of `resolveHasPreviousPage` (source lines 96–110). -/
def resolveHasPreviousPage (conn : ConnectionState) (data : List Entity) : Bool :=
  match conn.args.last with
  | some last => decide (repoCount data conn.selector (last + 1) > last)
  | none =>
    match conn.args.after with
    | some _ =>
      let beforeAfterSelector := keyToSelector conn.sortOptions (conn.afterKey.getD []) .before
      decide (repoCount data beforeAfterSelector 1 > 0)
    | none => false

/-- The memoisation cell `queryPromise` plus an instrumentation counter of how
many times `query()` was invoked. -/
structure FetchState where
  queryPromise : Option (List Entity)
  fetchCount : Nat
deriving DecidableEq, Repr

/-- Direct translation of `getEdgeSources` (source lines 112–117): run the
query on first access and cache its promise; later accesses return the cached
promise. -/
def getEdgeSources (conn : ConnectionState) (data : List Entity) (st : FetchState) :
    List Entity × FetchState :=
  match st.queryPromise with
  | some docs => (docs, st)
  | none =>
    let docs := runQuery conn data
    (docs, { queryPromise := some docs, fetchCount := st.fetchCount + 1 })

/-- `resolveCursor` (source lines 71–74): serialize the row's sort key. -/
def resolveCursor (conn : ConnectionState) (item : Entity) : String :=
  encodeKey (rowKey conn.sortOptions item)

lemma cvCompare_lt_iff (a b : CValue) : cvCompare a b = Ordering.lt ↔ cvLt a b = true := by
  unfold cvCompare
  cases hab : cvLt a b <;> cases hba : cvLt b a <;> simp

lemma cvCompare_gt_iff (a b : CValue) : cvCompare a b = Ordering.gt ↔ cvLt b a = true := by
  unfold cvCompare
  cases hab : cvLt a b <;> cases hba : cvLt b a <;> simp
  exact absurd hba (by simp [cvLt_asymm hab])

lemma cvCompare_eq_iff (a b : CValue) : cvCompare a b = Ordering.eq ↔ a = b := by
  unfold cvCompare
  cases hab : cvLt a b <;> cases hba : cvLt b a <;> simp
  · exact cvLt_connex hab hba
  · rintro rfl; rw [cvLt_irrefl] at hba; cases hba
  · rintro rfl; rw [cvLt_irrefl] at hab; cases hab
  · rintro rfl; rw [cvLt_irrefl] at hab; cases hab

lemma cvCompare_swap (a b : CValue) : cvCompare a b = (cvCompare b a).swap := by
  unfold cvCompare
  cases hab : cvLt a b <;> cases hba : cvLt b a <;> simp [Ordering.swap]
  have := cvLt_asymm hab
  rw [this] at hba
  cases hba

lemma fieldCmp_eq_iff (o : Int) (a b : CValue) : fieldCmp o a b = Ordering.eq ↔ a = b := by
  unfold fieldCmp
  split
  · exact cvCompare_eq_iff a b
  · rw [cvCompare_eq_iff]; exact eq_comm

lemma fieldCmp_swap (o : Int) (a b : CValue) : fieldCmp o a b = (fieldCmp o b a).swap := by
  unfold fieldCmp
  split <;> exact cvCompare_swap _ _

lemma fieldCmp_lt_trans {o : Int} {a b c : CValue}
    (h1 : fieldCmp o a b = Ordering.lt) (h2 : fieldCmp o b c = Ordering.lt) :
    fieldCmp o a c = Ordering.lt := by
  unfold fieldCmp at *
  by_cases ho : o = 1
  · rw [if_pos ho] at h1 h2 ⊢
    rw [cvCompare_lt_iff] at h1 h2 ⊢
    exact cvLt_trans h1 h2
  · rw [if_neg ho] at h1 h2 ⊢
    rw [cvCompare_lt_iff] at h1 h2 ⊢
    exact cvLt_trans h2 h1

lemma entCmp_eq_iff (sos : List SortOption) (a b : Entity) :
    entCmp sos a b = Ordering.eq ↔ rowKey sos a = rowKey sos b := by
  induction sos with
  | nil => simp [entCmp, rowKey]
  | cons so rest ih =>
    show (match fieldCmp so.order (fieldVal a so.fieldName) (fieldVal b so.fieldName) with
      | .eq => entCmp rest a b
      | o => o) = Ordering.eq ↔ _
    have hrk : rowKey (so :: rest) a = rowKey (so :: rest) b ↔
        (fieldVal a so.fieldName = fieldVal b so.fieldName ∧ rowKey rest a = rowKey rest b) := by
      simp [rowKey]
    rw [hrk]
    cases hf : fieldCmp so.order (fieldVal a so.fieldName) (fieldVal b so.fieldName) with
    | eq =>
      simp only []
      rw [ih]
      have : fieldVal a so.fieldName = fieldVal b so.fieldName := (fieldCmp_eq_iff _ _ _).mp hf
      simp [this]
    | lt =>
      simp only []
      constructor
      · intro h; cases h
      · rintro ⟨hv, -⟩
        rw [hv] at hf
        rw [(fieldCmp_eq_iff _ _ _).mpr rfl] at hf
        cases hf
    | gt =>
      simp only []
      constructor
      · intro h; cases h
      · rintro ⟨hv, -⟩
        rw [hv] at hf
        rw [(fieldCmp_eq_iff _ _ _).mpr rfl] at hf
        cases hf

lemma entCmp_swap (sos : List SortOption) (a b : Entity) :
    entCmp sos a b = (entCmp sos b a).swap := by
  induction sos with
  | nil => rfl
  | cons so rest ih =>
    show (match fieldCmp so.order (fieldVal a so.fieldName) (fieldVal b so.fieldName) with
      | .eq => entCmp rest a b
      | o => o) = _
    rw [fieldCmp_swap]
    cases hf : fieldCmp so.order (fieldVal b so.fieldName) (fieldVal a so.fieldName) with
    | eq => simpa [Ordering.swap, entCmp, hf] using ih
    | lt => simp [Ordering.swap, entCmp, hf]
    | gt => simp [Ordering.swap, entCmp, hf]

lemma entCmp_trans_ne_gt {sos : List SortOption} {a b c : Entity}
    (h1 : entCmp sos a b ≠ Ordering.gt) (h2 : entCmp sos b c ≠ Ordering.gt) :
    entCmp sos a c ≠ Ordering.gt := by
  induction sos with
  | nil => simp [entCmp]
  | cons so rest ih =>
    have unf : ∀ (x y : Entity), entCmp (so :: rest) x y =
        (match fieldCmp so.order (fieldVal x so.fieldName) (fieldVal y so.fieldName) with
         | .eq => entCmp rest x y
         | o => o) := fun _ _ => rfl
    rw [unf] at h1 h2 ⊢
    cases hab : fieldCmp so.order (fieldVal a so.fieldName) (fieldVal b so.fieldName) with
    | gt => rw [hab] at h1; exact absurd rfl h1
    | eq =>
      rw [hab] at h1
      have hv : fieldVal a so.fieldName = fieldVal b so.fieldName :=
        (fieldCmp_eq_iff _ _ _).mp hab
      cases hbc : fieldCmp so.order (fieldVal b so.fieldName) (fieldVal c so.fieldName) with
      | gt => rw [hbc] at h2; exact absurd rfl h2
      | eq =>
        rw [hbc] at h2
        have hv2 : fieldVal b so.fieldName = fieldVal c so.fieldName :=
          (fieldCmp_eq_iff _ _ _).mp hbc
        rw [hv, hv2, (fieldCmp_eq_iff _ _ _).mpr rfl]
        exact ih h1 h2
      | lt =>
        rw [hv, hbc]
        simp
    | lt =>
      rw [hab] at h1
      cases hbc : fieldCmp so.order (fieldVal b so.fieldName) (fieldVal c so.fieldName) with
      | gt => rw [hbc] at h2; exact absurd rfl h2
      | eq =>
        have hv2 : fieldVal b so.fieldName = fieldVal c so.fieldName :=
          (fieldCmp_eq_iff _ _ _).mp hbc
        rw [← hv2, hab]
        simp
      | lt =>
        rw [fieldCmp_lt_trans hab hbc]
        simp

lemma entLe_trans {sos : List SortOption} {a b c : Entity}
    (h1 : entLe sos a b = true) (h2 : entLe sos b c = true) : entLe sos a c = true := by
  unfold entLe at *
  rw [decide_eq_true_eq] at *
  exact entCmp_trans_ne_gt h1 h2

lemma entLe_total (sos : List SortOption) (a b : Entity) :
    entLe sos a b = true ∨ entLe sos b a = true := by
  unfold entLe
  rw [decide_eq_true_eq, decide_eq_true_eq]
  by_cases h : entCmp sos a b = Ordering.gt
  · right
    rw [entCmp_swap] at h
    intro hc
    rw [hc] at h
    cases h
  · left; exact h

lemma rowKey_map_order (sos : List SortOption) (f : SortOption → Int) (row : Entity) :
    rowKey (sos.map fun so => SortOption.mk so.fieldName (f so)) row = rowKey sos row := by
  simp [rowKey, List.map_map, Function.comp_def]

lemma entCmp_invert (sos : List SortOption)
    (hords : ∀ so ∈ sos, so.order = 1 ∨ so.order = -1) (a b : Entity) :
    entCmp (sos.map fun so => SortOption.mk so.fieldName (so.order * -1)) a b =
      entCmp sos b a := by
  induction sos with
  | nil => rfl
  | cons so rest ih =>
    have hso := hords so (List.mem_cons_self so rest)
    have hrest := fun so' hso' => hords so' (List.mem_cons_of_mem so hso')
    show (match fieldCmp (so.order * -1) (fieldVal a so.fieldName) (fieldVal b so.fieldName) with
      | .eq => entCmp (rest.map fun (so' : SortOption) =>
          SortOption.mk so'.fieldName (so'.order * -1)) a b
      | o => o) = _
    have hfc : fieldCmp (so.order * -1) (fieldVal a so.fieldName) (fieldVal b so.fieldName) =
        fieldCmp so.order (fieldVal b so.fieldName) (fieldVal a so.fieldName) := by
      rcases hso with ho | ho <;> rw [ho] <;> simp [fieldCmp]
    rw [hfc, ih hrest]
    rfl

lemma decodeIfTruthy_ok_isSome {c : Option String} {k : Option (List CValue)}
    (h : decodeIfTruthy c = .ok k) (hne : c ≠ some "") : k.isSome = c.isSome := by
  cases c with
  | none => cases h; rfl
  | some s =>
    have hs : s ≠ "" := fun h' => hne (by rw [h'])
    simp only [decodeIfTruthy] at h
    rw [if_neg hs] at h
    cases hdk : decodeKey s with
    | some key => rw [hdk] at h; cases h; rfl
    | none => rw [hdk] at h; cases h

lemma decodeIfTruthy_some {c : String} {k : Option (List CValue)}
    (h : decodeIfTruthy (some c) = .ok k) (hne : c ≠ "") :
    ∃ key, decodeKey c = some key ∧ k = some key := by
  simp only [decodeIfTruthy] at h
  rw [if_neg hne] at h
  cases hdk : decodeKey c with
  | some key => rw [hdk] at h; cases h; exact ⟨key, rfl, rfl⟩
  | none => rw [hdk] at h; cases h

lemma decodeIfTruthy_not_invalidArgument (c : Option String) (msg : String) :
    decodeIfTruthy c ≠ .error (.invalidArgument msg) := by
  cases c with
  | none => simp [decodeIfTruthy]
  | some s =>
    simp only [decodeIfTruthy]
    by_cases hs : s = ""
    · simp [hs]
    · rw [if_neg hs]
      cases decodeKey s <;> simp

/-- Inversion of a successful construction. -/
lemma mkConnection_ok_inv {args : ConnArgs} {options : MongoEntityConnectionOptions}
    {conn : ConnectionState} (h : mkConnection args options = .ok conn) :
    (truthyNat args.first && truthyNat args.last) = false ∧
    ∃ afterKey beforeKey,
      decodeIfTruthy args.after = .ok afterKey ∧
      decodeIfTruthy args.before = .ok beforeKey ∧
      conn = mkState args options afterKey beforeKey := by
  unfold mkConnection at h
  by_cases hc : (truthyNat args.first && truthyNat args.last) = true
  · rw [if_pos hc] at h; cases h
  · have hc' : (truthyNat args.first && truthyNat args.last) = false := by
      cases hval : (truthyNat args.first && truthyNat args.last)
      · rfl
      · exact absurd hval hc
    rw [if_neg hc] at h
    refine ⟨hc', ?_⟩
    cases hA : decodeIfTruthy args.after with
    | error e => rw [hA] at h; cases h
    | ok afterKey =>
      rw [hA] at h
      cases hB : decodeIfTruthy args.before with
      | error e => rw [hB] at h; cases h
      | ok beforeKey =>
        rw [hB] at h
        cases h
        exact ⟨afterKey, beforeKey, rfl, rfl, rfl⟩

/-- Semantics of the combined selector of a constructed state: the conjunction
of the present bound selectors and the base filter. -/
lemma evalSelector_mkState (args : ConnArgs) (options : MongoEntityConnectionOptions)
    (afterKey beforeKey : Option (List CValue)) (row : Entity) :
    evalSelector row (mkState args options afterKey beforeKey).selector =
      ((afterKey.elim true fun k =>
          evalSelector row (keyToSelector options.sortOptions k .after)) &&
       (beforeKey.elim true fun k =>
          evalSelector row (keyToSelector options.sortOptions k .before)) &&
       (options.selector.elim true fun s => evalSelector row s)) := by
  cases afterKey <;> cases beforeKey <;> cases hbase : options.selector <;>
    simp [mkState, pushedSelectors, combineSelectors, evalSelector, evalSelAll,
      evalEntries, Option.elim, hbase, Bool.and_assoc]

/-- Claim C6: the cursor codec round-trips exactly — decoding the cursor
produced by encoding a key yields the key, both for a raw key and for the
cursor `resolveCursor` derives from a row. -/
theorem cursor_roundtrip (k : List CValue) (conn : ConnectionState) (item : Entity) :
    decodeKey (encodeKey k) = some k ∧
    decodeKey (resolveCursor conn item) = some (rowKey conn.sortOptions item) :=
  ⟨decodeKey_encodeKey k, decodeKey_encodeKey _⟩

/-- Claim C4 (amended): construction fails with the invalid-argument error
exactly when both `first` and `last` are JS-truthy (positive); when either is
`0` or absent the exclusivity check passes, because the source tests
`args.first && args.last` under JS truthiness.  `mkConnection` takes no data
source at all, so the error precedes any data access by construction. -/
theorem firstLast_exclusivity_check (args : ConnArgs)
    (options : MongoEntityConnectionOptions) :
    ((truthyNat args.first && truthyNat args.last) = true →
      mkConnection args options = .error (.invalidArgument invalidArgMsg)) ∧
    ((truthyNat args.first && truthyNat args.last) = false →
      ∀ msg, mkConnection args options ≠ .error (.invalidArgument msg)) := by
  constructor
  · intro h
    unfold mkConnection
    rw [if_pos h]
  · intro h msg
    unfold mkConnection
    rw [if_neg (by rw [h]; simp)]
    cases hA : decodeIfTruthy args.after with
    | error e =>
      intro hcontra
      injection hcontra with he
      exact decodeIfTruthy_not_invalidArgument args.after msg (he ▸ hA)
    | ok afterKey =>
      cases hB : decodeIfTruthy args.before with
      | error e =>
        intro hcontra
        injection hcontra with he
        exact decodeIfTruthy_not_invalidArgument args.before msg (he ▸ hB)
      | ok beforeKey => simp

theorem firstLast_exclusivity_check_witness :
    (mkConnection ⟨some 1, some 2, none, none⟩ ⟨[⟨"a", 1⟩], none⟩
        = .error (.invalidArgument invalidArgMsg)) ∧
    (∀ msg, mkConnection ⟨some 0, some 2, none, none⟩ ⟨[⟨"a", 1⟩], none⟩
        ≠ .error (.invalidArgument msg)) :=
  ⟨(firstLast_exclusivity_check ⟨some 1, some 2, none, none⟩ ⟨[⟨"a", 1⟩], none⟩).1 (by decide),
   (firstLast_exclusivity_check ⟨some 0, some 2, none, none⟩ ⟨[⟨"a", 1⟩], none⟩).2 (by decide)⟩

/-- Claim C4 counterexample: `first = 0` and `last = 5` are both present
(non-negative integers), yet construction succeeds — the claimed
unconditional error on simultaneous `first`/`last` does not occur for `0`. -/
theorem firstLast_zero_counterexample :
    (mkConnection ⟨some 0, some 5, none, none⟩ ⟨[⟨"a", 1⟩], none⟩).isOk = true := rfl

/-- Claim C5 counterexample: at `first = 0` (and no `last`) the claimed limit
`first ?? last ?? undefined` is `some 0`, but the constructed state has no
limit — the source's `first || last || undefined` coerces `0` to `undefined`. -/
theorem limit_nullish_counterexample :
    (mkConnection ⟨some 0, none, none, none⟩ ⟨[⟨"a", 1⟩], none⟩).map
        (fun conn => conn.limit) = .ok none ∧
    (((⟨some 0, none, none, none⟩ : ConnArgs).first.orElse
        fun _ => (⟨some 0, none, none, none⟩ : ConnArgs).last).orElse fun _ => none)
      = some 0 ∧
    some 0 ≠ (none : Option Nat) :=
  ⟨rfl, rfl, by simp⟩

/-- Claim C5 (amended): the effective limit is `first` when `first` is
positive, else `last` when `last` is positive, else no limit — a `first` or
`last` of `0` is treated as absent by the `||` chain. -/
theorem limit_js_or (args : ConnArgs) (options : MongoEntityConnectionOptions)
    (conn : ConnectionState) (h : mkConnection args options = .ok conn) :
    (∀ f, args.first = some f → 1 ≤ f → conn.limit = some f) ∧
    ((args.first = none ∨ args.first = some 0) →
      ∀ l, args.last = some l → 1 ≤ l → conn.limit = some l) ∧
    ((args.first = none ∨ args.first = some 0) →
      (args.last = none ∨ args.last = some 0) → conn.limit = none) := by
  obtain ⟨-, ak, bk, -, -, rfl⟩ := mkConnection_ok_inv h
  have hlim : (mkState args options ak bk).limit = jsLimit args := rfl
  rw [hlim]
  refine ⟨?_, ?_, ?_⟩
  · intro f hf h1
    have ht : truthyNat args.first = true := by
      rw [hf]; simp [truthyNat]; omega
    rw [jsLimit, if_pos ht, hf]
  · intro hf l hl h1
    have hft : truthyNat args.first = false := by
      rcases hf with hf | hf <;> rw [hf] <;> simp [truthyNat]
    have hlt : truthyNat args.last = true := by
      rw [hl]; simp [truthyNat]; omega
    rw [jsLimit, if_neg (by rw [hft]; simp), if_pos hlt, hl]
  · intro hf hl
    have hft : truthyNat args.first = false := by
      rcases hf with hf | hf <;> rw [hf] <;> simp [truthyNat]
    have hlt : truthyNat args.last = false := by
      rcases hl with hl | hl <;> rw [hl] <;> simp [truthyNat]
    rw [jsLimit, if_neg (by rw [hft]; simp), if_neg (by rw [hlt]; simp)]

theorem limit_js_or_witness :
    (mkState ⟨some 2, none, none, none⟩ ⟨[⟨"a", 1⟩], none⟩ none none).limit = some 2 :=
  (limit_js_or ⟨some 2, none, none, none⟩ ⟨[⟨"a", 1⟩], none⟩
    (mkState ⟨some 2, none, none, none⟩ ⟨[⟨"a", 1⟩], none⟩ none none) rfl).1 2 rfl (by decide)

/-- Claim C9 counterexample: the error thrown for simultaneous truthy
`first`/`last` carries the message
`Argument "first" and "last" must not be included at the same time`, which
differs from the claimed exact wording. -/
theorem errorMessage_counterexample :
    mkConnection ⟨some 1, some 1, none, none⟩ ⟨[⟨"a", 1⟩], none⟩
      = .error (.invalidArgument
          "Argument \"first\" and \"last\" must not be included at the same time") ∧
    "Argument \"first\" and \"last\" must not be included at the same time"
      ≠ "first and last must not be included at the same time" :=
  ⟨rfl, by decide⟩

/-- Claim C9 (amended): whenever the exclusivity check fires (both arguments
truthy), the error carries exactly the message
`Argument "first" and "last" must not be included at the same time`. -/
theorem errorMessage_exact (args : ConnArgs) (options : MongoEntityConnectionOptions)
    (h : (truthyNat args.first && truthyNat args.last) = true) :
    mkConnection args options = .error (.invalidArgument
      "Argument \"first\" and \"last\" must not be included at the same time") := by
  unfold mkConnection
  rw [if_pos h]
  rfl

theorem errorMessage_exact_witness :
    mkConnection ⟨some 3, some 4, none, none⟩ ⟨[⟨"a", 1⟩], none⟩
      = .error (.invalidArgument
          "Argument \"first\" and \"last\" must not be included at the same time") :=
  errorMessage_exact ⟨some 3, some 4, none, none⟩ ⟨[⟨"a", 1⟩], none⟩ (by decide)

/-- Claim C8: the main fetch is issued at most once per connection — the first
access to the edge sources runs the query, stores its promise and bumps the
instrumented fetch counter once; every further access returns the identical
cached result with the state unchanged (no re-fetch). -/
theorem edge_sources_fetch_once (conn : ConnectionState) (data : List Entity) (c : Nat) :
    (getEdgeSources conn data ⟨none, c⟩).1 = runQuery conn data ∧
    (getEdgeSources conn data ⟨none, c⟩).2 = ⟨some (runQuery conn data), c + 1⟩ ∧
    getEdgeSources conn data ⟨some (runQuery conn data), c + 1⟩ =
      (runQuery conn data, ⟨some (runQuery conn data), c + 1⟩) :=
  ⟨rfl, rfl, rfl⟩

/-- Claim C7: the effective predicate is the logical AND of the after-bound
range predicate, the before-bound range predicate and the caller's base
filter, each conjunct present exactly when its argument/option is present
(cursor arguments are non-empty strings, as every encoded cursor of a
non-empty sort spec is); with no bound and no base filter the selector is
`{}`, which is unconditionally true — the conjunction of no conjuncts. -/
theorem selector_conjunction (args : ConnArgs) (options : MongoEntityConnectionOptions)
    (conn : ConnectionState) (h : mkConnection args options = .ok conn)
    (hA : args.after ≠ some "") (hB : args.before ≠ some "") (row : Entity) :
    evalSelector row conn.selector =
      ((conn.afterKey.elim true fun k =>
          evalSelector row (keyToSelector options.sortOptions k .after)) &&
       (conn.beforeKey.elim true fun k =>
          evalSelector row (keyToSelector options.sortOptions k .before)) &&
       (options.selector.elim true fun s => evalSelector row s)) ∧
    conn.afterKey.isSome = args.after.isSome ∧
    conn.beforeKey.isSome = args.before.isSome := by
  obtain ⟨-, ak, bk, hdA, hdB, rfl⟩ := mkConnection_ok_inv h
  refine ⟨?_, ?_, ?_⟩
  · have hak : (mkState args options ak bk).afterKey = ak := rfl
    have hbk : (mkState args options ak bk).beforeKey = bk := rfl
    rw [hak, hbk, evalSelector_mkState]
  · exact decodeIfTruthy_ok_isSome hdA hA
  · exact decodeIfTruthy_ok_isSome hdB hB

theorem selector_conjunction_witness :
    (evalSelector [("a", CValue.int 5)]
        (mkState ⟨none, none, some (encodeKey [CValue.int 1]), none⟩ ⟨[⟨"a", 1⟩], none⟩
          (some [CValue.int 1]) none).selector =
      (((mkState ⟨none, none, some (encodeKey [CValue.int 1]), none⟩ ⟨[⟨"a", 1⟩], none⟩
            (some [CValue.int 1]) none).afterKey.elim true fun k =>
          evalSelector [("a", CValue.int 5)] (keyToSelector [⟨"a", 1⟩] k .after)) &&
       ((mkState ⟨none, none, some (encodeKey [CValue.int 1]), none⟩ ⟨[⟨"a", 1⟩], none⟩
            (some [CValue.int 1]) none).beforeKey.elim true fun k =>
          evalSelector [("a", CValue.int 5)] (keyToSelector [⟨"a", 1⟩] k .before)) &&
       ((none : Option MongoSelector).elim true fun s =>
          evalSelector [("a", CValue.int 5)] s))) ∧
    (mkState ⟨none, none, some (encodeKey [CValue.int 1]), none⟩ ⟨[⟨"a", 1⟩], none⟩
        (some [CValue.int 1]) none).afterKey.isSome
      = (some (encodeKey [CValue.int 1])).isSome ∧
    (mkState ⟨none, none, some (encodeKey [CValue.int 1]), none⟩ ⟨[⟨"a", 1⟩], none⟩
        (some [CValue.int 1]) none).beforeKey.isSome = (none : Option String).isSome :=
  selector_conjunction ⟨none, none, some (encodeKey [CValue.int 1]), none⟩
    ⟨[⟨"a", 1⟩], none⟩
    (mkState ⟨none, none, some (encodeKey [CValue.int 1]), none⟩ ⟨[⟨"a", 1⟩], none⟩
      (some [CValue.int 1]) none)
    rfl (by decide) (by decide) [("a", CValue.int 5)]

/-- Claim C1: for a sort spec of length `N ≥ 1` with its (necessarily
distinct) field names and a decoded key of matching arity, the selector built
with direction `after` holds on a row exactly when the row's key is strictly
greater than the cursor key under the composite multi-field order (per-field
direction, tie-break at the first differing field), and `before`
symmetrically selects exactly the strictly smaller rows. -/
theorem range_predicate_matches_composite_order (sos : List SortOption) (k : List CValue)
    (row : Entity) (hN : 1 ≤ sos.length) (hlen : k.length = sos.length)
    (hnodup : (sos.map (·.fieldName)).Nodup) :
    evalSelector row (keyToSelector sos k .after) = keyAfter sos (rowKey sos row) k ∧
    evalSelector row (keyToSelector sos k .before) = keyBefore sos (rowKey sos row) k :=
  ⟨eval_keyToSelector .after sos k row hnodup hlen,
   eval_keyToSelector .before sos k row hnodup hlen⟩

theorem range_predicate_matches_composite_order_witness :
    (evalSelector [("a", CValue.int 5), ("b", CValue.str "x")]
        (keyToSelector [⟨"a", 1⟩, ⟨"b", -1⟩] [CValue.int 5, CValue.str "y"] .after) =
      keyAfter [⟨"a", 1⟩, ⟨"b", -1⟩]
        (rowKey [⟨"a", 1⟩, ⟨"b", -1⟩] [("a", CValue.int 5), ("b", CValue.str "x")])
        [CValue.int 5, CValue.str "y"]) ∧
    (evalSelector [("a", CValue.int 5), ("b", CValue.str "x")]
        (keyToSelector [⟨"a", 1⟩, ⟨"b", -1⟩] [CValue.int 5, CValue.str "y"] .before) =
      keyBefore [⟨"a", 1⟩, ⟨"b", -1⟩]
        (rowKey [⟨"a", 1⟩, ⟨"b", -1⟩] [("a", CValue.int 5), ("b", CValue.str "x")])
        [CValue.int 5, CValue.str "y"]) :=
  range_predicate_matches_composite_order [⟨"a", 1⟩, ⟨"b", -1⟩]
    [CValue.int 5, CValue.str "y"] [("a", CValue.int 5), ("b", CValue.str "x")]
    (by decide) (by decide) (by decide)

/-- Claim C10: the selector `keyToSelector` builds — non-strict comparisons on
the prefix fields and a strict comparison on the last field of each disjunct —
selects exactly the same rows as the spec's standard keyset predicate with
strict equality on prefix fields, for every sort spec with (necessarily
distinct) field names and key of matching arity, in both directions. -/
theorem keyToSelector_refines_equality_prefix (sos : List SortOption) (k : List CValue)
    (row : Entity) (hlen : k.length = sos.length)
    (hnodup : (sos.map (·.fieldName)).Nodup) :
    evalSelector row (keyToSelector sos k .after) = specKeysetPred sos k .after row ∧
    evalSelector row (keyToSelector sos k .before) = specKeysetPred sos k .before row := by
  constructor <;>
    rw [eval_keyToSelector _ sos k row hnodup hlen, ← specKeysetPred_eq _ sos k row hlen]

theorem keyToSelector_refines_equality_prefix_witness :
    (evalSelector [("a", CValue.int 7), ("b", CValue.str "q")]
        (keyToSelector [⟨"a", 1⟩, ⟨"b", -1⟩] [CValue.int 7, CValue.str "r"] .after) =
      specKeysetPred [⟨"a", 1⟩, ⟨"b", -1⟩] [CValue.int 7, CValue.str "r"] .after
        [("a", CValue.int 7), ("b", CValue.str "q")]) ∧
    (evalSelector [("a", CValue.int 7), ("b", CValue.str "q")]
        (keyToSelector [⟨"a", 1⟩, ⟨"b", -1⟩] [CValue.int 7, CValue.str "r"] .before) =
      specKeysetPred [⟨"a", 1⟩, ⟨"b", -1⟩] [CValue.int 7, CValue.str "r"] .before
        [("a", CValue.int 7), ("b", CValue.str "q")]) :=
  keyToSelector_refines_equality_prefix [⟨"a", 1⟩, ⟨"b", -1⟩]
    [CValue.int 7, CValue.str "r"] [("a", CValue.int 7), ("b", CValue.str "q")]
    (by decide) (by decide)

lemma filter_length_pos_iff_any {α : Type} (l : List α) (p : α → Bool) :
    0 < (l.filter p).length ↔ l.any p = true := by
  rw [List.length_pos, Ne, List.filter_eq_nil_iff, List.any_eq_true]
  push_neg
  constructor
  · rintro ⟨x, hx, hpx⟩
    exact ⟨x, hx, by simpa using hpx⟩
  · rintro ⟨x, hx, hpx⟩
    exact ⟨x, hx, by simpa using hpx⟩

/-- Claim C3: `hasNextPage` is true iff `first` is given and more than `first`
rows match the combined predicate (the bounded count probe at `first + 1`
exceeds `first`), else iff `before` is given and some row satisfies the
`after` predicate built from the decoded `beforeKey` alone, else it is false;
`hasPreviousPage` symmetrically with `last` and `after`. -/
theorem pageinfo_flags (args : ConnArgs) (options : MongoEntityConnectionOptions)
    (conn : ConnectionState) (data : List Entity)
    (h : mkConnection args options = .ok conn)
    (hA : args.after ≠ some "") (hB : args.before ≠ some "") :
    (resolveHasNextPage conn data = true ↔
      ((∃ f, args.first = some f ∧
          f < (data.filter fun row => evalSelector row conn.selector).length) ∨
       (args.first = none ∧ ∃ c key, args.before = some c ∧ decodeKey c = some key ∧
          (data.any fun row =>
            evalSelector row (keyToSelector options.sortOptions key .after)) = true))) ∧
    (resolveHasPreviousPage conn data = true ↔
      ((∃ l, args.last = some l ∧
          l < (data.filter fun row => evalSelector row conn.selector).length) ∨
       (args.last = none ∧ ∃ c key, args.after = some c ∧ decodeKey c = some key ∧
          (data.any fun row =>
            evalSelector row (keyToSelector options.sortOptions key .before)) = true))) := by
  obtain ⟨-, ak, bk, hdA, hdB, rfl⟩ := mkConnection_ok_inv h
  have hargs : (mkState args options ak bk).args = args := rfl
  have hsort : (mkState args options ak bk).sortOptions = options.sortOptions := rfl
  constructor
  · cases hf : args.first with
    | some f =>
      have hres : resolveHasNextPage (mkState args options ak bk) data =
          decide (repoCount data (mkState args options ak bk).selector (f + 1) > f) := by
        unfold resolveHasNextPage
        rw [hargs, hf]
      rw [hres]
      unfold repoCount
      simp only [decide_eq_true_eq]
      constructor
      · intro hgt
        exact .inl ⟨f, rfl, by omega⟩
      · rintro (⟨f', hf', hlt⟩ | ⟨hnone, -⟩)
        · have : f' = f := by injection hf' with hh; exact hh.symm
          subst this
          omega
        · cases hnone
    | none =>
      cases hb : args.before with
      | none =>
        have hres : resolveHasNextPage (mkState args options ak bk) data = false := by
          unfold resolveHasNextPage
          rw [hargs, hf, hb]
        rw [hres]
        constructor
        · intro hc; cases hc
        · rintro (⟨f', hf', -⟩ | ⟨-, c, key, hc, -⟩)
          · cases hf'
          · cases hc
      | some c =>
        have hc : c ≠ "" := fun hc' => hB (by rw [hb, hc'])
        obtain ⟨key, hdk, hbk⟩ := decodeIfTruthy_some (hb ▸ hdB) hc
        have hres : resolveHasNextPage (mkState args options ak bk) data =
            decide (repoCount data
              (keyToSelector options.sortOptions key .after) 1 > 0) := by
          unfold resolveHasNextPage
          rw [hargs, hf, hb, hsort,
            show (mkState args options ak bk).beforeKey = bk from rfl, hbk]
          rfl
        rw [hres]
        unfold repoCount
        simp only [decide_eq_true_eq]
        constructor
        · intro hgt
          refine .inr ⟨by trivial, c, key, rfl, hdk, ?_⟩
          rw [← filter_length_pos_iff_any]
          omega
        · rintro (⟨f', hf', -⟩ | ⟨-, c', key', hc', hdk', hany⟩)
          · cases hf'
          · have hcc : c' = c := by injection hc' with hh; exact hh.symm
            subst hcc
            have hkk : key' = key := by rw [hdk] at hdk'; injection hdk' with hh; exact hh.symm
            subst hkk
            rw [← filter_length_pos_iff_any] at hany
            omega
  · cases hl : args.last with
    | some l =>
      have hres : resolveHasPreviousPage (mkState args options ak bk) data =
          decide (repoCount data (mkState args options ak bk).selector (l + 1) > l) := by
        unfold resolveHasPreviousPage
        rw [hargs, hl]
      rw [hres]
      unfold repoCount
      simp only [decide_eq_true_eq]
      constructor
      · intro hgt
        exact .inl ⟨l, rfl, by omega⟩
      · rintro (⟨l', hl', hlt⟩ | ⟨hnone, -⟩)
        · have : l' = l := by injection hl' with hh; exact hh.symm
          subst this
          omega
        · cases hnone
    | none =>
      cases ha : args.after with
      | none =>
        have hres : resolveHasPreviousPage (mkState args options ak bk) data = false := by
          unfold resolveHasPreviousPage
          rw [hargs, hl, ha]
        rw [hres]
        constructor
        · intro hc; cases hc
        · rintro (⟨l', hl', -⟩ | ⟨-, c, key, hc, -⟩)
          · cases hl'
          · cases hc
      | some c =>
        have hc : c ≠ "" := fun hc' => hA (by rw [ha, hc'])
        obtain ⟨key, hdk, hak⟩ := decodeIfTruthy_some (ha ▸ hdA) hc
        have hres : resolveHasPreviousPage (mkState args options ak bk) data =
            decide (repoCount data
              (keyToSelector options.sortOptions key .before) 1 > 0) := by
          unfold resolveHasPreviousPage
          rw [hargs, hl, ha, hsort,
            show (mkState args options ak bk).afterKey = ak from rfl, hak]
          rfl
        rw [hres]
        unfold repoCount
        simp only [decide_eq_true_eq]
        constructor
        · intro hgt
          refine .inr ⟨by trivial, c, key, rfl, hdk, ?_⟩
          rw [← filter_length_pos_iff_any]
          omega
        · rintro (⟨l', hl', -⟩ | ⟨-, c', key', hc', hdk', hany⟩)
          · cases hl'
          · have hcc : c' = c := by injection hc' with hh; exact hh.symm
            subst hcc
            have hkk : key' = key := by rw [hdk] at hdk'; injection hdk' with hh; exact hh.symm
            subst hkk
            rw [← filter_length_pos_iff_any] at hany
            omega

theorem pageinfo_flags_witness :
    (resolveHasNextPage
        (mkState ⟨some 1, none, none, none⟩ ⟨[⟨"a", 1⟩], none⟩ none none)
        [[("a", CValue.int 1)], [("a", CValue.int 2)]] = true ↔
      ((∃ f, (some 1 : Option Nat) = some f ∧
          f < (([[("a", CValue.int 1)], [("a", CValue.int 2)]] :
              List Entity).filter fun row =>
            evalSelector row
              (mkState ⟨some 1, none, none, none⟩
                ⟨[⟨"a", 1⟩], none⟩ none none).selector).length) ∨
       ((some 1 : Option Nat) = none ∧ ∃ c key, (none : Option String) = some c ∧
          decodeKey c = some key ∧
          (([[("a", CValue.int 1)], [("a", CValue.int 2)]] : List Entity).any fun row =>
            evalSelector row (keyToSelector [⟨"a", 1⟩] key .after)) = true))) ∧
    (resolveHasPreviousPage
        (mkState ⟨some 1, none, none, none⟩ ⟨[⟨"a", 1⟩], none⟩ none none)
        [[("a", CValue.int 1)], [("a", CValue.int 2)]] = true ↔
      ((∃ l, (none : Option Nat) = some l ∧
          l < (([[("a", CValue.int 1)], [("a", CValue.int 2)]] :
              List Entity).filter fun row =>
            evalSelector row
              (mkState ⟨some 1, none, none, none⟩
                ⟨[⟨"a", 1⟩], none⟩ none none).selector).length) ∨
       ((none : Option Nat) = none ∧ ∃ c key, (none : Option String) = some c ∧
          decodeKey c = some key ∧
          (([[("a", CValue.int 1)], [("a", CValue.int 2)]] : List Entity).any fun row =>
            evalSelector row (keyToSelector [⟨"a", 1⟩] key .before)) = true))) :=
  pageinfo_flags ⟨some 1, none, none, none⟩ ⟨[⟨"a", 1⟩], none⟩
    (mkState ⟨some 1, none, none, none⟩ ⟨[⟨"a", 1⟩], none⟩ none none)
    [[("a", CValue.int 1)], [("a", CValue.int 2)]] rfl (by decide) (by decide)

/-- Two sorted permutations of each other are equal, given antisymmetry on the
elements involved. -/
lemma eq_of_perm_of_pairwise {α : Type} {r : α → α → Prop} :
    ∀ {l₁ l₂ : List α}, l₁.Perm l₂ → l₁.Pairwise r → l₂.Pairwise r →
      (∀ a ∈ l₁, ∀ b ∈ l₁, r a b → r b a → a = b) → l₁ = l₂ := by
  intro l₁
  induction l₁ with
  | nil =>
    intro l₂ hp _ _ _
    exact hp.nil_eq
  | cons a t₁ ih =>
    intro l₂ hp h₁ h₂ hanti
    cases l₂ with
    | nil => exact absurd hp.symm.nil_eq (by simp)
    | cons b t₂ =>
      by_cases hab : a = b
      · subst hab
        have hp' : t₁.Perm t₂ := hp.cons_inv
        have ht : t₁ = t₂ :=
          ih hp' (List.pairwise_cons.mp h₁).2 (List.pairwise_cons.mp h₂).2
            (fun x hx y hy hxy hyx =>
              hanti x (List.mem_cons_of_mem a hx) y (List.mem_cons_of_mem a hy) hxy hyx)
        rw [ht]
      · exfalso
        have hbmem : b ∈ a :: t₁ := hp.mem_iff.mpr (List.mem_cons_self b t₂)
        have hamem : a ∈ b :: t₂ := hp.mem_iff.mp (List.mem_cons_self a t₁)
        have hb : b ∈ t₁ := by
          rcases List.mem_cons.mp hbmem with hh | hh
          · exact absurd hh.symm hab
          · exact hh
        have ha : a ∈ t₂ := by
          rcases List.mem_cons.mp hamem with hh | hh
          · exact absurd hh hab
          · exact hh
        have rab : r a b := (List.pairwise_cons.mp h₁).1 b hb
        have rba : r b a := (List.pairwise_cons.mp h₂).1 a ha
        exact hab (hanti a (List.mem_cons_self a t₁) b (List.mem_cons_of_mem a hb) rab rba)

/-- Sorting by the inverted sort spec yields exactly the reverse of sorting by
the original spec, provided the composite keys of the rows are distinct. -/
lemma insertionSort_invert_eq_reverse (sos : List SortOption)
    (hords : ∀ so ∈ sos, so.order = 1 ∨ so.order = -1) (l : List Entity)
    (hinj : ∀ a ∈ l, ∀ b ∈ l, rowKey sos a = rowKey sos b → a = b) :
    List.insertionSort
        (fun a b =>
          entLe (sos.map fun so => SortOption.mk so.fieldName (so.order * -1)) a b = true) l
      = (List.insertionSort (fun a b => entLe sos a b = true) l).reverse := by
  have hperm :
      (List.insertionSort
        (fun a b =>
          entLe (sos.map fun so => SortOption.mk so.fieldName (so.order * -1)) a b = true)
        l).Perm
      ((List.insertionSort (fun a b => entLe sos a b = true) l).reverse) :=
    (List.perm_insertionSort _ l).trans
      ((List.perm_insertionSort _ l).symm.trans (List.reverse_perm _).symm)
  have hsortInv :
      (List.insertionSort
        (fun a b =>
          entLe (sos.map fun so => SortOption.mk so.fieldName (so.order * -1)) a b = true)
        l).Pairwise
        (fun a b =>
          entLe (sos.map fun so => SortOption.mk so.fieldName (so.order * -1)) a b = true) := by
    haveI : IsTotal Entity
        (fun a b =>
          entLe (sos.map fun so => SortOption.mk so.fieldName (so.order * -1)) a b = true) :=
      ⟨fun a b => entLe_total _ a b⟩
    haveI : IsTrans Entity
        (fun a b =>
          entLe (sos.map fun so => SortOption.mk so.fieldName (so.order * -1)) a b = true) :=
      ⟨fun a b c hab hbc => entLe_trans hab hbc⟩
    exact List.sorted_insertionSort _ l
  have hsortAsc :
      (List.insertionSort (fun a b => entLe sos a b = true) l).Pairwise
        (fun a b => entLe sos a b = true) := by
    haveI : IsTotal Entity (fun a b => entLe sos a b = true) := ⟨fun a b => entLe_total sos a b⟩
    haveI : IsTrans Entity (fun a b => entLe sos a b = true) :=
      ⟨fun a b c hab hbc => entLe_trans hab hbc⟩
    exact List.sorted_insertionSort _ l
  have hswap : ∀ a b : Entity, entLe sos a b = true →
      entLe (sos.map fun so => SortOption.mk so.fieldName (so.order * -1)) b a = true := by
    intro a b hab
    unfold entLe at hab ⊢
    rw [decide_eq_true_eq] at hab ⊢
    rw [entCmp_invert sos hords b a]
    exact hab
  have hsortRev :
      ((List.insertionSort (fun a b => entLe sos a b = true) l).reverse).Pairwise
        (fun a b =>
          entLe (sos.map fun so => SortOption.mk so.fieldName (so.order * -1)) a b = true) := by
    rw [List.pairwise_reverse]
    exact hsortAsc.imp (fun hab => hswap _ _ hab)
  have hanti : ∀ a ∈ List.insertionSort
        (fun a b =>
          entLe (sos.map fun so => SortOption.mk so.fieldName (so.order * -1)) a b = true) l,
      ∀ b ∈ List.insertionSort
        (fun a b =>
          entLe (sos.map fun so => SortOption.mk so.fieldName (so.order * -1)) a b = true) l,
      entLe (sos.map fun so => SortOption.mk so.fieldName (so.order * -1)) a b = true →
      entLe (sos.map fun so => SortOption.mk so.fieldName (so.order * -1)) b a = true →
      a = b := by
    intro a ha b hb hab hba
    have ha' : a ∈ l := (List.mem_insertionSort _).mp ha
    have hb' : b ∈ l := (List.mem_insertionSort _).mp hb
    have hcmp : entCmp (sos.map fun so => SortOption.mk so.fieldName (so.order * -1)) a b
        ≠ Ordering.gt := by
      unfold entLe at hab
      rwa [decide_eq_true_eq] at hab
    have hcmp' : entCmp (sos.map fun so => SortOption.mk so.fieldName (so.order * -1)) b a
        ≠ Ordering.gt := by
      unfold entLe at hba
      rwa [decide_eq_true_eq] at hba
    have heq : entCmp (sos.map fun so => SortOption.mk so.fieldName (so.order * -1)) a b
        = Ordering.eq := by
      cases hc : entCmp (sos.map fun so => SortOption.mk so.fieldName (so.order * -1)) a b with
      | eq => rfl
      | gt => exact absurd hc hcmp
      | lt =>
        exact absurd (by rw [entCmp_swap _ b a, hc]; rfl) hcmp'
    have hrk := (entCmp_eq_iff _ a b).mp heq
    rw [rowKey_map_order sos (fun so => so.order * -1) a,
      rowKey_map_order sos (fun so => so.order * -1) b] at hrk
    exact hinj a ha' b hb' hrk
  exact eq_of_perm_of_pairwise hperm hsortInv hsortRev hanti

lemma runQuery_eq (conn : ConnectionState) (data : List Entity) :
    runQuery conn data =
      (if conn.args.last.isSome then
        (repoFind data conn.selector
          (conn.sortOptions.map fun so => SortOption.mk so.fieldName (so.order * -1))
          conn.limit).reverse
      else
        repoFind data conn.selector
          (conn.sortOptions.map fun so => SortOption.mk so.fieldName (so.order * 1))
          conn.limit) := by
  unfold runQuery
  cases h : conn.args.last.isSome <;> simp [h]

/-- Claim C2 counterexample: with `last = 0` on a one-row matching set the
claim demands the final `0` elements (no edges), but `last = 0` is coerced to
"no limit" by `first || last || undefined`, so the query returns the whole
set. -/
theorem last_zero_counterexample :
    mkConnection ⟨none, some 0, none, none⟩ ⟨[⟨"a", 1⟩], none⟩
      = .ok (mkState ⟨none, some 0, none, none⟩ ⟨[⟨"a", 1⟩], none⟩ none none) ∧
    runQuery (mkState ⟨none, some 0, none, none⟩ ⟨[⟨"a", 1⟩], none⟩ none none)
        [[("a", CValue.int 1)]] = [[("a", CValue.int 1)]] ∧
    ([[("a", CValue.int 1)]] : List Entity) ≠ [] :=
  ⟨rfl, rfl, by simp⟩

/-- Claim C2 (amended to `k ≥ 1`; `last = 0` falls into the unbounded-fetch
path, see the counterexample): with `last = k ≥ 1`, the fetch runs with every
sort direction inverted and is reversed in memory, so on a matching set of
size `M` with pairwise-distinct sort keys the exposed rows are exactly the
final `k` elements in ascending composite order (`drop (M - k)` of the
ascending sort), and `hasPreviousPage` resolves to true whenever `k < M`. -/
theorem last_returns_tail (args : ConnArgs) (options : MongoEntityConnectionOptions)
    (conn : ConnectionState) (data : List Entity) (k : Nat)
    (h : mkConnection args options = .ok conn)
    (hlast : args.last = some k) (hk : 1 ≤ k)
    (hords : ∀ so ∈ options.sortOptions, so.order = 1 ∨ so.order = -1)
    (hinj : ∀ a ∈ data, ∀ b ∈ data,
      rowKey options.sortOptions a = rowKey options.sortOptions b → a = b) :
    runQuery conn data =
      (List.insertionSort (fun a b => entLe options.sortOptions a b = true)
        (data.filter fun row => evalSelector row conn.selector)).drop
        ((data.filter fun row => evalSelector row conn.selector).length - k) ∧
    (k < (data.filter fun row => evalSelector row conn.selector).length →
      resolveHasPreviousPage conn data = true) := by
  obtain ⟨hff, ak, bk, -, -, rfl⟩ := mkConnection_ok_inv h
  have hargs : (mkState args options ak bk).args = args := rfl
  have hsort : (mkState args options ak bk).sortOptions = options.sortOptions := rfl
  have hlt : truthyNat args.last = true := by
    rw [hlast]; simp [truthyNat]; omega
  have hft : truthyNat args.first = false := by
    cases hv : truthyNat args.first
    · rfl
    · rw [hv, hlt] at hff; cases hff
  have hlim : (mkState args options ak bk).limit = some k := by
    show jsLimit args = some k
    rw [jsLimit, if_neg (by rw [hft]; simp), if_pos hlt, hlast]
  have hinj' : ∀ a ∈ (data.filter fun row =>
        evalSelector row (mkState args options ak bk).selector),
      ∀ b ∈ (data.filter fun row =>
        evalSelector row (mkState args options ak bk).selector),
      rowKey options.sortOptions a = rowKey options.sortOptions b → a = b :=
    fun a ha b hb => hinj a (List.mem_of_mem_filter ha) b (List.mem_of_mem_filter hb)
  have hsorteq := insertionSort_invert_eq_reverse options.sortOptions hords
    (data.filter fun row => evalSelector row (mkState args options ak bk).selector) hinj'
  constructor
  · rw [runQuery_eq]
    rw [show (mkState args options ak bk).args.last = args.last from rfl, hlast]
    rw [if_pos (show (some k).isSome = true from rfl)]
    rw [hlim, hsort]
    show ((List.insertionSort _ _).take k).reverse = _
    rw [hsorteq]
    rw [← List.rtake_eq_reverse_take_reverse]
    show (List.insertionSort (fun a b => entLe options.sortOptions a b = true) _).drop _ = _
    have hlen : (List.insertionSort (fun a b => entLe options.sortOptions a b = true)
        (data.filter fun row =>
          evalSelector row (mkState args options ak bk).selector)).length =
        (data.filter fun row =>
          evalSelector row (mkState args options ak bk).selector).length :=
      (List.perm_insertionSort _ _).length_eq
    rw [hlen]
  · intro hm
    have hres : resolveHasPreviousPage (mkState args options ak bk) data =
        decide (repoCount data (mkState args options ak bk).selector (k + 1) > k) := by
      unfold resolveHasPreviousPage
      rw [hargs, hlast]
    rw [hres]
    unfold repoCount
    simp only [decide_eq_true_eq]
    omega

theorem last_returns_tail_witness :
    (runQuery (mkState ⟨none, some 1, none, none⟩ ⟨[⟨"a", 1⟩], none⟩ none none)
        [[("a", CValue.int 2)], [("a", CValue.int 1)]] =
      (List.insertionSort (fun a b => entLe [⟨"a", 1⟩] a b = true)
        (([[("a", CValue.int 2)], [("a", CValue.int 1)]] : List Entity).filter fun row =>
          evalSelector row
            (mkState ⟨none, some 1, none, none⟩
              ⟨[⟨"a", 1⟩], none⟩ none none).selector)).drop
        ((([[("a", CValue.int 2)], [("a", CValue.int 1)]] : List Entity).filter fun row =>
          evalSelector row
            (mkState ⟨none, some 1, none, none⟩
              ⟨[⟨"a", 1⟩], none⟩ none none).selector).length - 1)) ∧
    (1 < (([[("a", CValue.int 2)], [("a", CValue.int 1)]] : List Entity).filter fun row =>
        evalSelector row
          (mkState ⟨none, some 1, none, none⟩ ⟨[⟨"a", 1⟩], none⟩ none none).selector).length →
      resolveHasPreviousPage
        (mkState ⟨none, some 1, none, none⟩ ⟨[⟨"a", 1⟩], none⟩ none none)
        [[("a", CValue.int 2)], [("a", CValue.int 1)]] = true) :=
  last_returns_tail ⟨none, some 1, none, none⟩ ⟨[⟨"a", 1⟩], none⟩
    (mkState ⟨none, some 1, none, none⟩ ⟨[⟨"a", 1⟩], none⟩ none none)
    [[("a", CValue.int 2)], [("a", CValue.int 1)]] 1 rfl rfl (by decide) (by decide) (by decide)
